import Mathlib

/-!
Verification development for the epydoc documentation indexer
(`epydoc/sandbox/epydoc3/epydoc/docindexer.py`).

The indexer builds a `DocIndex` over a graph of `ValueDoc` and `VariableDoc`
entities: it computes contained/reachable sets, assigns canonical dotted names
by a scored recursion, resolves `imported_from` links by merging entities, and
back-fills `canonical_container` attributes.  The entity data model
(`apidoc.py`: `DottedName`, `ValueDoc`, `VariableDoc`, the `UNKNOWN` sentinel)
is not part of the sources; those parts are modelled from the spec and are
marked as such.  Everything in `docindexer.py` is embedded directly.

Python mutates shared heap objects; the embedding uses an arena of entity
records addressed by numeric handles, with the mutable contents carried in an
explicit state.  Entity identity is handle equality (the spec fixes identity
to be reference identity, never structural).  Python `sets.Set` values are
modelled as insertion-ordered duplicate-free lists, and the unbounded
recursions/loops of the Python code take an explicit fuel argument, returning
`none` when the fuel runs out or when the Python code would raise an
`AttributeError`.
-/

/-- Modelled from the spec: tri-state attribute values.  `known v` is a real
value, `absent` is Python `None`, `unknown` is the epydoc `UNKNOWN` sentinel
(spec section 3: {Known(v), KnownAbsent, Unknown}). -/
inductive Tri (α : Type) where
  | known : α → Tri α
  | absent : Tri α
  | unknown : Tri α
deriving DecidableEq

/-- Whether a tri-state field holds a real value. -/
def Tri.isKnown : Tri α → Bool
  | .known _ => true
  | _ => false

/-- Extract the value of a known tri-state field, with a default. -/
def Tri.getD (t : Tri α) (d : α) : α :=
  match t with
  | .known v => v
  | _ => d

/-- Modelled from the spec: a `DottedName` is an ordered sequence of
identifier strings (`apidoc.DottedName` is not in the sources). -/
abbrev DottedName := List String

/-- Modelled from the spec: `DottedName.dominates(other)` holds iff `self` is
a proper-or-equal prefix of `other` (spec section 3). -/
def dominates (a b : DottedName) : Bool := a.isPrefixOf b

/-- Kind of a `ValueDoc`: `module` is `ModuleDoc`, `cls` is `ClassDoc`,
`property` is `PropertyDoc`, `other` covers the remaining value kinds.
`ModuleDoc` and `ClassDoc` are the `NamespaceDoc` kinds. -/
inductive DocKind where
  | module | cls | property | other
deriving DecidableEq

/-- Modelled from the spec and from the attribute accesses in
`docindexer.py`: the mutable content of a `ValueDoc` entity.  Variable and
value references are handles (numeric indices) into the arenas. -/
structure ValueDoc where
  kind : DocKind
  canonical_name : Tri DottedName
  canonical_container : Tri Nat
  imported_from : Tri DottedName
  /-- Embeds the Python attribute `variables` (the identifier `variables` is
  reserved in Lean). -/
  nsvariables : Tri (List Nat)
  local_variables : Tri (List Nat)
  package : Tri Nat
  bases : Tri (List Nat)
  subclasses : Tri (List Nat)
  fget : Tri Nat
  fset : Tri Nat
  fdel : Tri Nat
  submodules : Tri (List Nat)
  pyname : Option String
deriving DecidableEq

/-- Default `ValueDoc` used for out-of-range handle accesses. -/
def dfltVal : ValueDoc :=
  { kind := .other, canonical_name := .unknown, canonical_container := .unknown,
    imported_from := .unknown, nsvariables := .unknown, local_variables := .unknown,
    package := .unknown, bases := .unknown, subclasses := .unknown,
    fget := .unknown, fset := .unknown, fdel := .unknown,
    submodules := .unknown, pyname := none }

/-- Modelled from the spec: the content of a `VariableDoc` binding entity. -/
structure VariableDoc where
  name : String
  value : Tri Nat
  is_imported : Tri Bool
  is_alias : Tri Bool
deriving DecidableEq

/-- Default `VariableDoc` for out-of-range handle accesses. -/
def dfltVar : VariableDoc :=
  { name := "", value := .unknown, is_imported := .unknown, is_alias := .unknown }

/-- The input to `DocIndex.__init__`: the entity arenas and the handles of the
root `ValueDoc`s. -/
structure Arena where
  vals : List ValueDoc
  vars : List VariableDoc
  roots : List Nat
deriving DecidableEq

/-- The mutable construction state of a `DocIndex`: the (mutated in place)
`ValueDoc` contents, the immutable `VariableDoc` contents, the sorted root
list, and the index sets (`reachable_valdocs`, `reachable_vardocs`,
`contained_valdocs`, `_score_dict`, `_unreachable_names`).  Python `Set`s are
insertion-ordered duplicate-free lists; `contained_valdocs` can contain the
Python `None` object (represented by `Option.none`), because
`_find_contained_valdocs` recurses into `None`-valued variables. -/
structure St where
  vals : List ValueDoc
  vars : List VariableDoc
  rootList : List Nat
  reachable_valdocs : List Nat
  reachable_vardocs : List Nat
  contained_valdocs : List (Option Nat)
  score_dict : List (Nat × Int)
  unreachable_names : List DottedName
deriving DecidableEq

/-- Default state (used only to totalize projections). -/
def dfltSt : St :=
  { vals := [], vars := [], rootList := [], reachable_valdocs := [],
    reachable_vardocs := [], contained_valdocs := [], score_dict := [],
    unreachable_names := [] }

/-- Content of the `ValueDoc` with the given handle. -/
def getVal (st : St) (v : Nat) : ValueDoc := st.vals.getD v dfltVal

/-- Content of the `VariableDoc` with the given handle. -/
def getVar (st : St) (b : Nat) : VariableDoc := st.vars.getD b dfltVar

/-- Overwrite the content of a `ValueDoc` (in-place mutation of the entity). -/
def setVal (st : St) (v : Nat) (d : ValueDoc) : St :=
  { st with vals := st.vals.set v d }

/-- Python `set.add`: append if not already present (insertion order). -/
def addUnique [DecidableEq α] (l : List α) (x : α) : List α :=
  if x ∈ l then l else l ++ [x]

/-- `self._score_dict[val_doc]`, `none` when absent. -/
def scoreOf (st : St) (v : Nat) : Option Int :=
  (st.score_dict.find? (fun p => p.1 = v)).map (·.2)

/-- `self._score_dict[val_doc] = s`. -/
def setScore (st : St) (v : Nat) (s : Int) : St :=
  { st with score_dict := (v, s) :: st.score_dict.filter (fun p => ¬ p.1 = v) }

/-- `sys.maxint` of a 64-bit CPython 2 (the exact magnitude is irrelevant;
only `0 < pymaxint` matters). -/
def pymaxint : Int := 9223372036854775807

/-- `DocIndex._vardocs_reachable_from`: the `VariableDoc`s directly reachable
from a `ValueDoc` — `local_variables.values()` of a `ClassDoc` followed by
`variables.values()` of a `NamespaceDoc` (`ClassDoc` is both). -/
def vardocs_reachable_from (st : St) (v : Nat) : List Nat :=
  (if (getVal st v).kind = .cls then ((getVal st v).local_variables).getD [] else []) ++
  (if (getVal st v).kind = .cls ∨ (getVal st v).kind = .module then
      ((getVal st v).nsvariables).getD [] else [])

/-- `DocIndex._vardocs_reachable_from` applied to a possibly-`None` value
(Python `isinstance(None, ...)` checks fail, giving the empty list). -/
def vardocs_reachable_from_opt (st : St) : Option Nat → List Nat
  | none => []
  | some v => vardocs_reachable_from st v

/-- Helper for tri-state handle-list fields: known list or empty. -/
def triList (t : Tri (List Nat)) : List Nat := t.getD []

/-- Helper for tri-state handle fields that Python checks with
`not in (UNKNOWN, None)`: a known handle yields a singleton list. -/
def triRef (t : Tri Nat) : List Nat :=
  match t with
  | .known v => [v]
  | _ => []

/-- `DocIndex._valdocs_reachable_from`: package of a module, bases and
subclasses of a class, accessor functions of a property. -/
def valdocs_reachable_from (st : St) (v : Nat) : List Nat :=
  (if (getVal st v).kind = .module then triRef (getVal st v).package else []) ++
  (if (getVal st v).kind = .cls then
      triList (getVal st v).bases ++ triList (getVal st v).subclasses else []) ++
  (if (getVal st v).kind = .property then
      triRef (getVal st v).fget ++ triRef (getVal st v).fset ++
      triRef (getVal st v).fdel else [])

/-- Tri-state handle to `Option` handle, as Python passes `var_doc.value`
around after excluding `UNKNOWN` (`None` stays `None`). -/
def triValOpt : Tri Nat → Option Nat
  | .known u => some u
  | _ => none

/-- Pending work of `DocIndex._find_contained_valdocs`: either a call on a
value (possibly the Python `None` object), or the remainder of the loop over
`_vardocs_reachable_from`. -/
inductive WTask where
  | node (v : Option Nat)
  | varloop (bs : List Nat)

/-- `DocIndex._find_contained_valdocs`, with explicit fuel (`none` on fuel
exhaustion).  On a `node` call: return if the value is already in
`contained_valdocs` (cycle check), else add it and loop over the reachable
variables.  Per variable: add it to `reachable_vardocs`; skip if its value is
`UNKNOWN`; recurse into the value unless `is_imported` is `True`.  A variable
whose value is `None` is recursed into (Python adds `None` to the contained
set and finds no variables reachable from it). -/
def find_contained_valdocs : Nat → St → WTask → Option St
  | 0, _, _ => none
  | f+1, st, .node v =>
    if v ∈ st.contained_valdocs then some st
    else
      let st1 := { st with contained_valdocs := st.contained_valdocs ++ [v] }
      find_contained_valdocs f st1 (.varloop (vardocs_reachable_from_opt st1 v))
  | _+1, st, .varloop [] => some st
  | f+1, st, .varloop (b :: rest) =>
    let st1 := { st with reachable_vardocs := addUnique st.reachable_vardocs b }
    match (getVar st1 b).value with
    | .unknown => find_contained_valdocs f st1 (.varloop rest)
    | tv =>
      if (getVar st1 b).is_imported = .known true then
        find_contained_valdocs f st1 (.varloop rest)
      else
        match find_contained_valdocs f st1 (.node (triValOpt tv)) with
        | none => none
        | some st2 => find_contained_valdocs f st2 (.varloop rest)

/-- Score penalty for the `is_imported` flag of a variable (`-10` when
`UNKNOWN`, `-100` when `True`; `None` is falsy in Python, so no penalty). -/
def penalty_imported : Tri Bool → Int
  | .unknown => 10
  | .known true => 100
  | _ => 0

/-- Score penalty for the `is_alias` flag of a variable. -/
def penalty_alias : Tri Bool → Int
  | .unknown => 10
  | .known true => 1000
  | _ => 0

/-- Base name for `DocIndex._unreachable_name`: `??` prefixed to the
declared import origin, else to the `__name__` of the Python value, else
bare `??`. -/
def unreachable_name_base (st : St) (v : Nat) : DottedName :=
  match (getVal st v).imported_from with
  | .known p => "??" :: p
  | _ =>
    match (getVal st v).pyname with
    | some nm => ["??", nm]
    | none => ["??"]

/-- Python formats the dotted name with percent-s, appends a dash and the
counter, and re-parses the result as a `DottedName`, so the suffix lands on
the last segment. -/
def nameWithSuffix (nm : DottedName) (n : Nat) : DottedName :=
  nm.dropLast ++ [(nm.getLast?).getD "" ++ "-" ++ toString n]

/-- Uniquification loop of `DocIndex._unreachable_name`: starting from `n=2`,
find the first suffixed variant not in `_unreachable_names`.  The Python
`while` always terminates because the used-name set is finite; the search
range `[2, used.length+2]` contains an unused suffix by pigeonhole. -/
def uniquify (used : List DottedName) (nm : DottedName) : DottedName :=
  if nm ∈ used then
    match ((List.range (used.length + 1)).map (· + 2)).find?
        (fun n => ¬ nameWithSuffix nm n ∈ used) with
    | some n => nameWithSuffix nm n
    | none => nameWithSuffix nm (used.length + 2)
  else nm

/-- `DocIndex._unreachable_name`: build, uniquify, and record the synthetic
name for a value with no binding-reachable path. -/
def unreachable_name (st : St) (v : Nat) : DottedName × St :=
  let nm := uniquify st.unreachable_names (unreachable_name_base st v)
  (nm, { st with unreachable_names := addUnique st.unreachable_names nm })

/-- Pending work of `DocIndex._assign_canonical_names`: a call on a value
(with candidate name, score and parent), the loop over
`_vardocs_reachable_from`, or the loop over `_valdocs_reachable_from`. -/
inductive ATask where
  | node (v : Nat) (name : DottedName) (score : Int) (parent : Option Nat)
  | varloop (v : Nat) (name : DottedName) (score : Int) (bs : List Nat)
  | valloop (v : Nat) (cs : List Nat)

/-- `DocIndex._assign_canonical_names`, with explicit fuel.  `none` models
both fuel exhaustion and the `AttributeError` the Python code raises when it
recurses into a variable whose value is `None` (it reads
`None.canonical_name`), or when a first-visited value has `canonical_name`
set to `None` (the subsequent `DottedName(None, ...)` raises).  On a `node`
call: return when the value was visited before with a score at least as good;
otherwise mark it reachable; on a first visit of a value that already has a
name, freeze that name with score `sys.maxint` and continue with it at score
0; otherwise overwrite name/container/score when the new score is better;
then loop over the reachable variables (hop `-1`, penalties for the
imported and alias flags, candidate name redirected to the declared
`imported_from` of the bound value when that is known) and over the values
(synthetic name, score `-10000`). -/
def assign_canonical_names : Nat → St → ATask → Option St
  | 0, _, _ => none
  | f+1, st, .node v name score parent =>
    if (scoreOf st v).isSome ∧ score ≤ (scoreOf st v).getD 0 then some st
    else
      let st1 := { st with reachable_valdocs := addUnique st.reachable_valdocs v }
      match scoreOf st v, (getVal st v).canonical_name with
      | none, .known nm =>
        let st2 := setScore st1 v pymaxint
        match assign_canonical_names f st2
            (.varloop v nm 0 (vardocs_reachable_from st2 v)) with
        | none => none
        | some st3 => assign_canonical_names f st3 (.valloop v (valdocs_reachable_from st3 v))
      | none, .absent => none
      | _, _ =>
        let st2 :=
          if scoreOf st v = none ∨ (scoreOf st v).getD 0 < score then
            setScore
              (setVal st1 v
                { getVal st1 v with
                  canonical_name := .known name,
                  canonical_container :=
                    match parent with
                    | some p => .known p
                    | none => .absent })
              v score
          else st1
        match assign_canonical_names f st2
            (.varloop v name score (vardocs_reachable_from st2 v)) with
        | none => none
        | some st3 => assign_canonical_names f st3 (.valloop v (valdocs_reachable_from st3 v))
  | _+1, st, .varloop _ _ _ [] => some st
  | f+1, st, .varloop v name score (b :: rest) =>
    match (getVar st b).value with
    | .unknown => assign_canonical_names f st (.varloop v name score rest)
    | .absent => none
    | .known u =>
      let varname :=
        match (getVal st u).imported_from with
        | .known p => p
        | _ => name ++ [(getVar st b).name]
      let vardoc_score :=
        score - 1 - penalty_imported (getVar st b).is_imported
          - penalty_alias (getVar st b).is_alias
      match assign_canonical_names f st (.node u varname vardoc_score (some v)) with
      | none => none
      | some st2 => assign_canonical_names f st2 (.varloop v name score rest)
  | _+1, st, .valloop _ [] => some st
  | f+1, st, .valloop v (c :: rest) =>
    let p := unreachable_name st c
    match assign_canonical_names f p.2 (.node c p.1 (-10000) (some v)) with
    | none => none
    | some st2 => assign_canonical_names f st2 (.valloop v rest)

/-- Canonical name of a value as a plain list (empty when not known). -/
def canonOf (st : St) (r : Nat) : DottedName := (getVal st r).canonical_name.getD []

/-- Inner loop of `DocIndex._get_from`: walk the remaining identifier
segments down the variable chain.  At each segment: a `None` current value is
a dead end; else search the reachable variables for a matching local name and
descend into its value (`UNKNOWN` becomes `None`); else fall back to the
submodules of a module by exact canonical-name match (a module whose
`submodules` are not known, or a non-module, fails the lookup; a current
value without a known canonical name would make Python raise inside
`DottedName` and is modelled as not-found). -/
def get_from_loop (st : St) (varAcc valAcc : Option Nat) :
    List String → Option Nat × Option Nat
  | [] => (varAcc, valAcc)
  | idf :: rest =>
    match valAcc with
    | none => (none, none)
    | some v =>
      match (vardocs_reachable_from st v).find? (fun b => (getVar st b).name = idf) with
      | some b => get_from_loop st (some b) (triValOpt (getVar st b).value) rest
      | none =>
        if (getVal st v).kind = .module then
          match (getVal st v).submodules, (getVal st v).canonical_name with
          | .known subs, .known nm =>
            match subs.find? (fun sm => (getVal st sm).canonical_name = .known (nm ++ [idf])) with
            | some sm => get_from_loop st none (some sm) rest
            | none => (none, none)
          | _, _ => (none, none)
        else (none, none)

/-- Whether a root's canonical name dominates (is a prefix of) the requested
name.  Python evaluates `root_valdoc.canonical_name.dominates(name)`; the
root names are known by the construction precondition. -/
def root_dominates (st : St) (r : Nat) (name : DottedName) : Bool :=
  (getVal st r).canonical_name.isKnown && dominates (canonOf st r) name

/-- Loop of `DocIndex._get`: try each root whose canonical name dominates the
requested name, in root-list order; take the first whose `_get_from` walk
returns a variable or a value; `(None, None)` if every dominating root
fails. -/
def try_roots (st : St) (name : DottedName) : List Nat → Option Nat × Option Nat
  | [] => (none, none)
  | r :: rest =>
    if root_dominates st r name then
      let p := get_from_loop st none (some r) (name.drop (canonOf st r).length)
      if p.1 ≠ none ∨ p.2 ≠ none then p else try_roots st name rest
    else try_roots st name rest

/-- `DocIndex._get`. -/
def lookup_pair (st : St) (name : DottedName) : Option Nat × Option Nat :=
  try_roots st name st.rootList

/-- `DocIndex.get_vardoc`. -/
def get_vardoc (st : St) (name : DottedName) : Option Nat := (lookup_pair st name).1

/-- `DocIndex.get_valdoc`. -/
def get_valdoc (st : St) (name : DottedName) : Option Nat := (lookup_pair st name).2

/-- One merge step of the import-resolution loop (`DocIndex.__init__`,
"Resolving imports"): discard the alias value from `reachable_valdocs` /
`contained_valdocs` when the resolution target is already a member, then
overwrite the alias entity's content (`__class__` and `__dict__`) with the
target's. -/
def mergeOnce (st : St) (v src : Nat) : St :=
  let st1 :=
    if src ∈ st.reachable_valdocs then
      { st with reachable_valdocs := st.reachable_valdocs.erase v }
    else st
  let st2 :=
    if (some src) ∈ st1.contained_valdocs then
      { st1 with contained_valdocs := st1.contained_valdocs.erase (some v) }
    else st1
  setVal st2 v (getVal st2 src)

/-- The `while val_doc.imported_from not in (UNKNOWN, None)` loop of
`DocIndex.__init__` for one value, with explicit fuel: resolve the declared
origin against the current index; stop when the origin does not resolve or
resolves to the value itself; otherwise merge and continue with the (new)
`imported_from` of the merged content.  Entity comparison is reference
identity (handle equality), as the spec prescribes. -/
def resolve_imports_val : Nat → St → Nat → Option St
  | 0, _, _ => none
  | f+1, st, v =>
    match (getVal st v).imported_from with
    | .known p =>
      match get_valdoc st p with
      | some src => if src = v then some st else resolve_imports_val f (mergeOnce st v src) v
      | none => some st
    | _ => some st

/-- The import-resolution pass: run the merge loop over a snapshot
(`list(self.reachable_valdocs)`) of the reachable values. -/
def resolve_imports (f : Nat) (st : St) : Option St :=
  st.reachable_valdocs.foldlM (fun s v => resolve_imports_val f s v) st

/-- Container back-fill for one value (`DocIndex.__init__`, "Finding
canonical containers"): skip values whose `canonical_container` is already
known or known-absent; a module gets its `package`; otherwise look up the
parent path of the canonical name and search the container's variables (and,
for a class container, its `local_variables`) for a binding whose value is
this entity.  Python raises when it calls `.values()` on an `UNKNOWN` or
`None` `local_variables` of a class container, or `container()` on a
non-known canonical name; both are modelled as `none`.  The search of the
container's namespace variables is split out as `backfill_ns_step`. -/
def backfill_ns_step (st : St) (v cd : Nat) : St :=
  if ((getVal st cd).kind = .module ∨ (getVal st cd).kind = .cls) ∧
      ((getVal st cd).nsvariables).isKnown then
    if (triList (getVal st cd).nsvariables).any
        (fun b => (getVar st b).value = .known v) then
      setVal st v { getVal st v with canonical_container := .known cd }
    else st
  else st

/-- Continuation of the back-fill after the namespace-variables search. -/
def backfill_container (st : St) (v : Nat) : Option St :=
  if (getVal st v).canonical_container ≠ .unknown then some st
  else if (getVal st v).kind = .module then
    some (setVal st v { getVal st v with canonical_container := (getVal st v).package })
  else
    match (getVal st v).canonical_name with
    | .known nm =>
      if nm.length ≤ 1 then
        some (setVal st v { getVal st v with canonical_container := .absent })
      else
        match get_valdoc st nm.dropLast with
        | none => some st
        | some cd =>
          let st1 := backfill_ns_step st v cd
          if (getVal st1 cd).kind = .cls then
            match (getVal st1 cd).local_variables with
            | .known ls =>
              if ls.any (fun b => (getVar st1 b).value = .known v) then
                some (setVal st1 v { getVal st1 v with canonical_container := .known cd })
              else some st1
            | _ => none
          else some st1
    | _ => none

/-- The container back-fill pass over the reachable values. -/
def set_canonical_containers (st : St) : Option St :=
  st.reachable_valdocs.foldlM (fun s v => backfill_container s v) st

/-- Result of `DocIndex.__init__`: the precondition `ValueError`, a
non-completing run (fuel exhaustion standing for non-termination, or a Python
exception inside indexing), or the constructed index state. -/
inductive BuildResult where
  | precondError
  | incomplete
  | done (st : St)
deriving DecidableEq

/-- Sort key for the root list: the length of the root's canonical name. -/
def rootKeyLen (a : Arena) (r : Nat) : Nat :=
  ((a.vals.getD r dfltVal).canonical_name.getD []).length

/-- Initial construction state: empty index sets and the root list sorted by
canonical-name length, ascending (`sorted(root, key=lambda d:
len(d.canonical_name))` — a stable sort, like Python's). -/
def initSt (a : Arena) : St :=
  { vals := a.vals, vars := a.vars,
    rootList := List.insertionSort (fun r s => rootKeyLen a r ≤ rootKeyLen a s) a.roots,
    reachable_valdocs := [], reachable_vardocs := [], contained_valdocs := [],
    score_dict := [], unreachable_names := [] }

/-- The per-root indexing loop of `DocIndex.__init__`: for each root in
sorted order, run `_find_contained_valdocs` and then
`_assign_canonical_names` with the root's current canonical name, score `0`
and no parent. -/
def index_roots (f : Nat) (st : St) : Option St :=
  st.rootList.foldlM
    (fun s r =>
      match find_contained_valdocs f s (.node (some r)) with
      | none => none
      | some s1 => assign_canonical_names f s1 (.node r (canonOf s1 r) 0 none))
    st

/-- `DocIndex.__init__`: precondition check (every root must already have a
canonical name, else `ValueError`), then containment/naming per root, then
the import resolution, then container back-fill.  (The conflict check of
the Python code is dead code behind an unconditional `return` and is not
part of construction.) -/
def buildIndex (f : Nat) (a : Arena) : BuildResult :=
  if a.roots.all (fun r => (a.vals.getD r dfltVal).canonical_name.isKnown) then
    match index_roots f (initSt a) with
    | none => .incomplete
    | some st1 =>
      match resolve_imports f st1 with
      | none => .incomplete
      | some st2 =>
        match set_canonical_containers st2 with
        | none => .incomplete
        | some st3 => .done st3
  else .precondError

/-- The state of a completed construction, if any. -/
def doneSt : BuildResult → Option St
  | .done st => some st
  | _ => none

/-- Canonical name of a value in the completed index. -/
def nameAfter (r : BuildResult) (v : Nat) : Option (Tri DottedName) :=
  (doneSt r).map (fun st => (getVal st v).canonical_name)

/-- Reachable-value set of the completed index. -/
def reachableAfter (r : BuildResult) : Option (List Nat) :=
  (doneSt r).map St.reachable_valdocs

/-- Contained-value set of the completed index. -/
def containedAfter (r : BuildResult) : Option (List (Option Nat)) :=
  (doneSt r).map St.contained_valdocs

/-- `get_valdoc` applied to the completed index. -/
def lookupAfter (r : BuildResult) (name : DottedName) : Option (Option Nat) :=
  (doneSt r).map (fun st => get_valdoc st name)

/-- Module `ValueDoc` constructor for examples. -/
def mkModule (nm : Tri DottedName) (vs : List Nat) : ValueDoc :=
  { dfltVal with kind := .module, canonical_name := nm, nsvariables := .known vs }

/-- Class `ValueDoc` constructor for examples. -/
def mkClass (nm : Tri DottedName) (lvs : List Nat) (bs : List Nat) : ValueDoc :=
  { dfltVal with
    kind := .cls, canonical_name := nm, local_variables := .known lvs,
    nsvariables := .known [], bases := .known bs, subclasses := .known [] }

/-- Plain value with a declared import origin. -/
def mkImportedFrom (p : DottedName) : ValueDoc :=
  { dfltVal with imported_from := .known p }

/-- `VariableDoc` constructor for examples. -/
def mkVar (n : String) (v : Tri Nat) (imp al : Tri Bool) : VariableDoc :=
  { name := n, value := v, is_imported := imp, is_alias := al }

/-- Direct (non-imported, non-aliased) binding. -/
def mkDirect (n : String) (v : Nat) : VariableDoc :=
  mkVar n (.known v) (.known false) (.known false)

/-- Single pre-named module with no variables. -/
def aTiny : Arena :=
  { vals := [mkModule (.known ["m"]) []], vars := [], roots := [0] }

/-- Arena with an unnamed root (precondition violation): one value whose
`canonical_name` is `UNKNOWN`. -/
def aNoName : Arena :=
  { vals := [mkModule .unknown []], vars := [], roots := [0] }

/-- Module `m` with a pre-named value `A` (name `pre.A`) that declares
`imported_from = m.y`, and a second binding `y` to `B`: the merger rewrites
`A`'s content with `B`'s, changing its canonical name. -/
def aC1 : Arena :=
  { vals := [mkModule (.known ["m"]) [0, 1],
      { mkImportedFrom ["m", "y"] with canonical_name := .known ["pre", "A"] }, dfltVal],
    vars := [mkDirect "x" 1, mkDirect "y" 2],
    roots := [0] }

/-- Module `m` with a 102-hop chain of direct, non-imported, non-aliased
bindings `m.c1.c2...c101.t` to a value `T` (handle 102), plus a single
definitely-imported binding `m.imp` to the same `T`.  Direct path score
`-102`, imported path score `-101`: the imported name wins. -/
def aC2 : Arena :=
  { vals := [mkModule (.known ["m"]) [0, 102]] ++
      ((List.range 100).map (fun i => mkModule .unknown [i + 1])) ++
      [mkModule .unknown [101], dfltVal],
    vars := ((List.range 101).map (fun i => mkDirect ("c" ++ toString (i + 1)) (i + 1))) ++
      [mkDirect "t" 102, mkVar "imp" (.known 102) (.known true) (.known false)],
    roots := [0] }

/-- The canonical name the 102-hop direct path of `aC2` would give `T`. -/
def directNameC2 : DottedName :=
  ["m"] ++ ((List.range 101).map (fun i => "c" ++ toString (i + 1))) ++ ["t"]

/-- Same-namespace version: module `m` with a direct binding `d` and a
definitely-imported binding `i`, both to value `V` (handle 1), `d`
enumerated first. -/
def aC2d : Arena :=
  { vals := [mkModule (.known ["m"]) [0, 1], dfltVal],
    vars := [mkDirect "d" 1, mkVar "i" (.known 1) (.known true) (.known false)],
    roots := [0] }

/-- `aC2d` with the two bindings enumerated in the opposite order. -/
def aC2r : Arena :=
  { vals := [mkModule (.known ["m"]) [1, 0], dfltVal],
    vars := aC2d.vars, roots := [0] }

/-- Merge-loop divergence input: `m` binds `x` to `A` and `y` to `B`; both
`A` and `B` declare `imported_from = m.y`.  Resolving `A` finds `B`
(a distinct entity) forever.  Values 3 and 4 are classes forming a
base-class cycle reachable through `m.K`, so the graph contains cycles. -/
def aC3 : Arena :=
  { vals := [mkModule (.known ["m"]) [0, 1, 2],
      mkImportedFrom ["m", "y"], mkImportedFrom ["m", "y"],
      mkClass .unknown [] [4], mkClass .unknown [] [3]],
    vars := [mkDirect "x" 1, mkDirect "y" 2, mkDirect "K" 3],
    roots := [0] }

/-- The state of `aC3` after containment and naming. -/
def stC3 : St := (index_roots 60 (initSt aC3)).getD dfltSt

/-- `stC3` after one merge step on value `A` (handle 1): a fixpoint the merge
loop cycles on forever. -/
def stC3m : St := mergeOnce stC3 1 2

/-- Subset-violation input: `m` binds `x` (not imported) to `A`, which
declares `imported_from = m.y`, and `y` (imported) to `B`.  `A` is contained;
`B` is reachable but not contained; merging discards `A` from the reachable
set only. -/
def aC4 : Arena :=
  { vals := [mkModule (.known ["m"]) [0, 1], mkImportedFrom ["m", "y"], dfltVal],
    vars := [mkDirect "x" 1, mkVar "y" (.known 2) (.known true) (.known false)],
    roots := [0] }

/-- Synthetic-name input: a pre-named root class `C` whose base class `D`
(handle 1) is reachable only through the class-to-base value pointer, so `D`
gets the synthetic name `??`, which no root dominates. -/
def aC5 : Arena :=
  { vals := [mkClass (.known ["C"]) [] [1], dfltVal], vars := [], roots := [0] }

/-- Round-trip input: module `m` binds `a` to class `C`, whose
`local_variables` bind `meth` to function `F`; all direct definitions. -/
def aC5w : Arena :=
  { vals := [mkModule (.known ["m"]) [0], mkClass .unknown [1] [], dfltVal],
    vars := [mkDirect "a" 1, mkDirect "meth" 2],
    roots := [0] }

/-- Walker input: module `m` with a single non-imported binding `b` whose
target value is known-absent (`None`). -/
def aC6 : Arena :=
  { vals := [mkModule (.known ["m"]) [0]],
    vars := [mkVar "b" .absent (.known false) (.known false)],
    roots := [0] }

/-- Order-dependence input: module `m` with two direct bindings `a` and `b`
to the same fresh value `V`, enumerated `a` before `b`. -/
def aC7 : Arena :=
  { vals := [mkModule (.known ["m"]) [0, 1], dfltVal],
    vars := [mkDirect "a" 1, mkDirect "b" 1],
    roots := [0] }

/-- `aC7` with the two bindings enumerated in the opposite order; every other
input is identical. -/
def aC7r : Arena :=
  { vals := [mkModule (.known ["m"]) [1, 0], dfltVal],
    vars := aC7.vars, roots := [0] }

/-- Unequal-score version: module `m` with a direct binding `d` and a
definitely-aliased binding `al`, both to value `V`. -/
def aC7d : Arena :=
  { vals := [mkModule (.known ["m"]) [0, 1], dfltVal],
    vars := [mkDirect "d" 1, mkVar "al" (.known 1) (.known false) (.known true)],
    roots := [0] }

/-- `aC7d` with the two bindings enumerated in the opposite order. -/
def aC7dr : Arena :=
  { vals := [mkModule (.known ["m"]) [1, 0], dfltVal],
    vars := aC7d.vars, roots := [0] }

/-- Non-idempotence input: `m` binds `a` to `A` (declared
`imported_from = m.b.x`), `b` to module `B` (no variables, declared
`imported_from = m.c`), and `c` to module `C`, which binds `x` to `X`.
Pass 1 fails to resolve `A` (no `x` under `B` yet) but merges `B` into `C`;
pass 2 then resolves and merges `A`. -/
def aC8 : Arena :=
  { vals := [mkModule (.known ["m"]) [0, 1, 2], mkImportedFrom ["m", "b", "x"],
      { mkModule .unknown [] with imported_from := .known ["m", "c"] },
      mkModule .unknown [3], dfltVal],
    vars := [mkDirect "a" 1, mkDirect "b" 2, mkDirect "c" 3, mkDirect "x" 4],
    roots := [0] }

/-- State of `aC8` after containment and naming. -/
def stC8 : St := (index_roots 60 (initSt aC8)).getD dfltSt

/-- `stC8` after one import-resolution pass. -/
def stC8a : St := (resolve_imports 20 stC8).getD dfltSt

/-- `stC8a` after a second import-resolution pass. -/
def stC8b : St := (resolve_imports 20 stC8a).getD dfltSt

/-- Single-link import input: `m` binds `a` to `A` (declared
`imported_from = m.b`) and `b` to `B`; pass 1 merges `A` into `B` and
reaches a fixpoint. -/
def aC8w : Arena :=
  { vals := [mkModule (.known ["m"]) [0, 1], mkImportedFrom ["m", "b"], dfltVal],
    vars := [mkDirect "a" 1, mkDirect "b" 2],
    roots := [0] }

/-- State of `aC8w` after containment and naming. -/
def stC8w : St := (index_roots 30 (initSt aC8w)).getD dfltSt

/-- `stC8w` after one import-resolution pass. -/
def stC8wa : St := (resolve_imports 10 stC8w).getD dfltSt

/-- Completed index of `aC4`. -/
def stC4 : St := (doneSt (buildIndex 40 aC4)).getD dfltSt

/-- Completed index of `aC5`. -/
def stC5 : St := (doneSt (buildIndex 30 aC5)).getD dfltSt

/-- Completed index of `aC5w`. -/
def stC5w : St := (doneSt (buildIndex 30 aC5w)).getD dfltSt

/-- The components of the construction state that the containment walker
never changes. -/
def wstable (st : St) :
    List ValueDoc × List VariableDoc × List Nat × List (Nat × Int) × List DottedName :=
  (st.vals, st.vars, st.rootList, st.score_dict, st.unreachable_names)

/-- The per-entity fields `_assign_canonical_names` never writes (everything
except `canonical_name` and `canonical_container`). -/
def coreFields (d : ValueDoc) :
    DocKind × Tri DottedName × Tri (List Nat) × Tri (List Nat) × Tri Nat ×
      Tri (List Nat) × Tri (List Nat) × Tri Nat × Tri Nat × Tri Nat ×
      Tri (List Nat) × Option String :=
  (d.kind, d.imported_from, d.nsvariables, d.local_variables, d.package, d.bases,
   d.subclasses, d.fget, d.fset, d.fdel, d.submodules, d.pyname)

/-- The components of the construction state that the naming pass leaves
untouched: the variables, the root list and the core fields of every
value. -/
def coreSt (st : St) := (st.vars, st.rootList, st.vals.map coreFields)

/-- Scores carried by the pending naming tasks: the recursion only ever
passes non-positive scores (roots start at 0, hops and penalties only
subtract, the frozen-name continuation restarts at 0, and value hops use
`-10000`). -/
def taskScoreOK : ATask → Prop
  | .node _ _ s _ => s ≤ 0
  | .varloop _ _ s _ => s ≤ 0
  | .valloop _ _ => True

/-- The completed index of `aTiny`. -/
def stTiny : St := (doneSt (buildIndex 10 aTiny)).getD dfltSt

instance arenaKeyTotal (a : Arena) :
    IsTotal Nat (fun r s => rootKeyLen a r ≤ rootKeyLen a s) :=
  ⟨fun _ _ => Nat.le_total _ _⟩

instance arenaKeyTrans (a : Arena) :
    IsTrans Nat (fun r s => rootKeyLen a r ≤ rootKeyLen a s) :=
  ⟨fun _ _ _ h1 h2 => Nat.le_trans h1 h2⟩

/-! ## Claim theorems: concrete counterexamples and evaluations -/

set_option maxRecDepth 100000

/-- C1, counterexample: value `A` (handle 1) of `aC1` carries the canonical
name `pre.A` before indexing, but after the whole construction (containment,
naming, alias merging, back-fill) its canonical name is `m.y`: the merger
overwrote the pre-existing name when it unified `A` with the target of its
`imported_from` link. -/
theorem c1_preexisting_name_lost :
    (aC1.vals.getD 1 dfltVal).canonical_name = .known ["pre", "A"] ∧
    nameAfter (buildIndex 40 aC1) 1 = some (.known ["m", "y"]) ∧
    (Tri.known ["m", "y"] : Tri DottedName) ≠ .known ["pre", "A"] :=
  ⟨rfl, by decide, by decide⟩

/-- C2, counterexample: in `aC2` the value `T` (handle 102) is reachable both
by a 102-binding direct path (every binding non-imported and non-aliased) and
by one definitely-imported binding `m.imp`; the assigned canonical name is
`m.imp` — the name derived from the imported path, not the direct one
(direct score `-102` loses to imported score `-101`). -/
theorem c2_long_direct_path_loses :
    nameAfter (buildIndex 400 aC2) 102 = some (.known ["m", "imp"]) ∧
    (Tri.known ["m", "imp"] : Tri DottedName) ≠ .known directNameC2 := by
  constructor
  · decide
  · decide

/-- C2, amended: when the direct (non-imported, non-aliased) binding and the
definitely-imported binding to the same fresh value sit in the same
namespace, the direct binding's name wins in either enumeration order
(`aC2d` enumerates the direct binding first, `aC2r` second). -/
theorem c2_direct_wins_same_namespace :
    nameAfter (buildIndex 40 aC2d) 1 = some (.known ["m", "d"]) ∧
    nameAfter (buildIndex 40 aC2r) 1 = some (.known ["m", "d"]) :=
  ⟨by decide, by decide⟩

/-- C3, helper: the state reached after the first merge of `A` (handle 1)
with `B` (handle 2) in `aC3` is a fixpoint of the merge step, so the
`while imported_from` loop never terminates on it. -/
theorem resolve_val_stC3m_diverges : ∀ f, resolve_imports_val f stC3m 1 = none := by
  intro f
  induction f with
  | zero => rfl
  | succ n ih =>
    have h1 : resolve_imports_val (n + 1) stC3m 1 =
        resolve_imports_val n (mergeOnce stC3m 1 2) 1 := rfl
    have h2 : mergeOnce stC3m 1 2 = stC3m := by decide
    rw [h2] at h1
    exact h1.trans ih

/-- C3: on the finite cyclic graph `aC3` (classes 3 and 4 are mutual base
classes), containment and naming complete, but the import-resolution loop of
`DocIndex.__init__` runs forever on value `A`: its `imported_from` path
`m.y` always resolves to the distinct entity `B`, the merge rewrites `A`'s
content to `B`'s (which again declares `imported_from = m.y`), and no
iteration changes anything — the code lacks the no-change detection the spec
prescribes, so index construction does not terminate at any fuel. -/
theorem c3_merge_loop_diverges :
    index_roots 60 (initSt aC3) = some stC3 ∧
    (∀ f, resolve_imports_val f stC3 1 = none) ∧
    buildIndex 60 aC3 = .incomplete := by
  refine ⟨by decide, ?_, by decide⟩
  intro f
  cases f with
  | zero => rfl
  | succ n =>
    have h1 : resolve_imports_val (n + 1) stC3 1 = resolve_imports_val n stC3m 1 := rfl
    exact h1.trans (resolve_val_stC3m_diverges n)

/-- C4: in the completed index of `aC4`, value `A` (handle 1) is in
`contained_valdocs` but not in `reachable_valdocs`: the merger discarded `A`
from the reachable set (its merge target `B` was reachable) but not from the
contained set (`B` was not contained), violating the documented invariant
`contained_valdocs ⊆ reachable_valdocs`. -/
theorem c4_contained_not_subset_reachable :
    buildIndex 40 aC4 = .done stC4 ∧
    some 1 ∈ stC4.contained_valdocs ∧ 1 ∉ stC4.reachable_valdocs :=
  ⟨by decide, by decide, by decide⟩

/-- C5, counterexample: in the completed index of `aC5`, the base class `D`
(handle 1) is reachable and has the synthetic canonical name `??`, but
`get_valdoc` on `??` returns nothing (no root dominates a synthetic name),
so the lookup round-trip fails for it. -/
theorem c5_synthetic_name_lookup_fails :
    buildIndex 30 aC5 = .done stC5 ∧ 1 ∈ stC5.reachable_valdocs ∧
    (getVal stC5 1).canonical_name = .known ["??"] ∧ get_valdoc stC5 ["??"] = none :=
  ⟨by decide, by decide, by decide, by decide⟩

/-- C5, amended: for values whose canonical name is the binding path that the
lookup walk actually follows (no synthetic names, no `imported_from`
redirection, no shadowing), the round-trip holds: in `aC5w`, class `C` gets
name `m.a` and function `F` gets `m.a.meth`, and `get_valdoc` returns each
entity from its canonical name. -/
theorem c5_roundtrip_direct_chain :
    buildIndex 30 aC5w = .done stC5w ∧
    (getVal stC5w 1).canonical_name = .known ["m", "a"] ∧
    get_valdoc stC5w ["m", "a"] = some 1 ∧
    (getVal stC5w 2).canonical_name = .known ["m", "a", "meth"] ∧
    get_valdoc stC5w ["m", "a", "meth"] = some 2 :=
  ⟨by decide, by decide, by decide, by decide, by decide⟩

/-- C6, counterexample: in `aC6` the single binding `b` has a known-absent
(`None`) target and is not imported; the containment walker does not skip
it — it recurses into the absent target, adding the `None` marker to
`contained_valdocs` (final contained set `[m, None]`). -/
theorem c6_walker_recurses_into_absent :
    (aC6.vars.getD 0 dfltVar).value = .absent ∧
    (find_contained_valdocs 10 (initSt aC6) (.node (some 0))).map St.contained_valdocs =
      some [some 0, none] :=
  ⟨rfl, by decide⟩

/-- C7, counterexample: `aC7` and `aC7r` contain identical entities and
differ only in the enumeration order of the two direct bindings `a` and `b`
of `m`, both of which point at the same value `V` (handle 1); the two runs
assign `V` the different canonical names `m.a` and `m.b` (equal scores, the
first-enumerated path wins). -/
theorem c7_order_changes_names :
    aC7.vals.getD 1 dfltVal = aC7r.vals.getD 1 dfltVal ∧ aC7.vars = aC7r.vars ∧
    nameAfter (buildIndex 30 aC7) 1 = some (.known ["m", "a"]) ∧
    nameAfter (buildIndex 30 aC7r) 1 = some (.known ["m", "b"]) ∧
    (Tri.known ["m", "a"] : Tri DottedName) ≠ .known ["m", "b"] :=
  ⟨rfl, rfl, by decide, by decide, by decide⟩

/-- C7, amended: enumeration order only breaks ties between equal-score
paths; when the two competing binding paths have different scores (here a
direct binding against a definitely-aliased one), both enumeration orders
assign the same, higher-scored name. -/
theorem c7_unequal_scores_order_invariant :
    nameAfter (buildIndex 30 aC7d) 1 = some (.known ["m", "d"]) ∧
    nameAfter (buildIndex 30 aC7dr) 1 = some (.known ["m", "d"]) :=
  ⟨by decide, by decide⟩

/-- C8, counterexample: running the import merger a second time over the
index produced by the first run changes it.  In `aC8`, pass 1 cannot resolve
`A`'s origin `m.b.x` (module `B` has no variable `x` yet) but merges `B`
into `C`; pass 2 then resolves `m.b.x` through the merged content of `B` and
merges `A` as well, changing entity contents and the reachable/contained
sets. -/
theorem c8_second_pass_changes_index :
    index_roots 60 (initSt aC8) = some stC8 ∧
    resolve_imports 20 stC8 = some stC8a ∧
    resolve_imports 20 stC8a = some stC8b ∧
    stC8b ≠ stC8a :=
  ⟨by decide, by decide, by decide, by decide⟩

/-- C8, amended: the merger is idempotent when no merge changes the result
of a lookup performed later by the merger itself; in the single-link graph
`aC8w`, pass 1 merges `A` into `B` and a second pass is the identity. -/
theorem c8_idempotent_single_link :
    index_roots 30 (initSt aC8w) = some stC8w ∧
    resolve_imports 10 stC8w = some stC8wa ∧
    resolve_imports 10 stC8wa = some stC8wa :=
  ⟨by decide, by decide, by decide⟩

theorem find_contained_wstable :
    ∀ (f : Nat) (st : St) (t : WTask) (st' : St),
      find_contained_valdocs f st t = some st' → wstable st' = wstable st := by
  intro f
  induction f with
  | zero => intro st t st' h; simp [find_contained_valdocs] at h
  | succ n ih =>
    intro st t st' h
    cases t with
    | node v =>
      simp only [find_contained_valdocs] at h
      split at h
      · obtain rfl := Option.some.inj h; rfl
      · exact (ih _ _ _ h).trans rfl
    | varloop bs =>
      cases bs with
      | nil =>
        simp only [find_contained_valdocs] at h
        obtain rfl := Option.some.inj h; rfl
      | cons b rest =>
        simp only [find_contained_valdocs] at h
        split at h
        · exact (ih _ _ _ h).trans rfl
        · split at h
          · exact (ih _ _ _ h).trans rfl
          · split at h
            · exact absurd h (by simp)
            · rename_i st2 heq
              exact (ih _ _ _ h).trans ((ih _ _ _ heq).trans rfl)

theorem map_coreFields_setVal (st : St) (v : Nat) (d : ValueDoc)
    (h : coreFields d = coreFields (getVal st v)) :
    (setVal st v d).vals.map coreFields = st.vals.map coreFields := by
  apply List.ext_getElem?
  intro n
  show ((st.vals.set v d).map coreFields)[n]? = _
  rw [List.map_set, List.getElem?_set]
  split
  · rename_i hvn
    subst hvn
    split
    · rename_i hlt
      rw [List.length_map] at hlt
      rw [List.getElem?_map, List.getElem?_eq_getElem hlt]
      have hv : getVal st v = st.vals[v] := List.getD_eq_getElem st.vals dfltVal hlt
      rw [h, hv]
      rfl
    · rename_i hlt
      rw [List.length_map] at hlt
      rw [List.getElem?_map, List.getElem?_eq_none (by omega)]
      rfl
  · rfl

theorem coreSt_setNameCont (st : St) (v : Nat) (nm : Tri DottedName) (cc : Tri Nat)
    (s : Int) (rv : List Nat) :
    coreSt (setScore
      (setVal { st with reachable_valdocs := rv } v
        { getVal st v with canonical_name := nm, canonical_container := cc }) v s) =
      coreSt st := by
  unfold coreSt
  exact congrArg (fun l => (st.vars, st.rootList, l))
    (map_coreFields_setVal { st with reachable_valdocs := rv } v _ rfl)

theorem assign_core_stable :
    ∀ (f : Nat) (st : St) (t : ATask) (st' : St),
      assign_canonical_names f st t = some st' → coreSt st' = coreSt st := by
  intro f
  induction f with
  | zero => intro st t st' h; simp [assign_canonical_names] at h
  | succ n ih =>
    intro st t st' h
    cases t with
    | node v name score parent =>
      simp only [assign_canonical_names] at h
      split at h
      · obtain rfl := Option.some.inj h; rfl
      · split at h
        · split at h
          · exact absurd h (by simp)
          · rename_i st3 heq
            exact (ih _ _ _ h).trans ((ih _ _ _ heq).trans rfl)
        · exact absurd h (by simp)
        · split at h
          · exact absurd h (by simp)
          · rename_i st3 heq
            refine ((ih _ _ _ h).trans (ih _ _ _ heq)).trans ?_
            split
            · exact coreSt_setNameCont st v _ _ _ _
            · rfl
    | varloop v name score bs =>
      cases bs with
      | nil =>
        simp only [assign_canonical_names] at h
        obtain rfl := Option.some.inj h; rfl
      | cons b rest =>
        simp only [assign_canonical_names] at h
        split at h
        · exact ih _ _ _ h
        · exact absurd h (by simp)
        · split at h
          · exact absurd h (by simp)
          · rename_i st2 heq
            exact (ih _ _ _ h).trans (ih _ _ _ heq)
    | valloop v cs =>
      cases cs with
      | nil =>
        simp only [assign_canonical_names] at h
        obtain rfl := Option.some.inj h; rfl
      | cons c rest =>
        simp only [assign_canonical_names] at h
        split at h
        · exact absurd h (by simp)
        · rename_i st2 heq
          exact (ih _ _ _ h).trans ((ih _ _ _ heq).trans rfl)

theorem getVal_setScore (st : St) (w : Nat) (s : Int) (i : Nat) :
    getVal (setScore st w s) i = getVal st i := rfl

theorem find?_key_filter_ne (l : List (Nat × Int)) (i w : Nat) (h : ¬ i = w) :
    (l.filter (fun p => ¬ p.1 = w)).find? (fun p => p.1 = i) =
      l.find? (fun p => p.1 = i) := by
  induction l with
  | nil => rfl
  | cons x xs ih =>
    rw [List.filter_cons]
    by_cases hw : x.1 = w
    · rw [if_neg (by simp [hw]), ih,
        List.find?_cons_of_neg _ (by simp only [decide_eq_true_eq]; omega)]
    · by_cases hi : x.1 = i
      · rw [if_pos (by simp [hw]), List.find?_cons_of_pos _ (by simp [hi]),
          List.find?_cons_of_pos _ (by simp [hi])]
      · rw [if_pos (by simp [hw]), List.find?_cons_of_neg _ (by simp [hi]),
          List.find?_cons_of_neg _ (by simp [hi]), ih]

theorem scoreOf_setScore (st : St) (w : Nat) (s : Int) (i : Nat) :
    scoreOf (setScore st w s) i = if i = w then some s else scoreOf st i := by
  unfold scoreOf setScore
  by_cases hiw : i = w
  · subst hiw
    rw [if_pos rfl, List.find?_cons_of_pos _ (by simp)]
    rfl
  · rw [if_neg hiw, List.find?_cons_of_neg _ (by simp only [decide_eq_true_eq]; omega),
      find?_key_filter_ne _ _ _ hiw]

theorem getVal_setVal_ne (st : St) {w i : Nat} (d : ValueDoc) (h : ¬ i = w) :
    getVal (setVal st w d) i = getVal st i := by
  unfold getVal setVal
  simp only [List.getD_eq_getElem?_getD]
  rw [List.getElem?_set_ne (fun hh => h hh.symm)]

theorem penalty_imported_nonneg (t : Tri Bool) : 0 ≤ penalty_imported t := by
  cases t with
  | known b => cases b <;> simp [penalty_imported]
  | absent => simp [penalty_imported]
  | unknown => simp [penalty_imported]

theorem penalty_alias_nonneg (t : Tri Bool) : 0 ≤ penalty_alias t := by
  cases t with
  | known b => cases b <;> simp [penalty_alias]
  | absent => simp [penalty_alias]
  | unknown => simp [penalty_alias]

theorem assign_preserves_prenamed (v : Nat) (nm : DottedName) :
    ∀ (f : Nat) (st : St) (t : ATask) (st' : St),
      taskScoreOK t →
      (getVal st v).canonical_name = .known nm →
      (scoreOf st v = none ∨ scoreOf st v = some pymaxint) →
      assign_canonical_names f st t = some st' →
      (getVal st' v).canonical_name = .known nm ∧
      (scoreOf st' v = none ∨ scoreOf st' v = some pymaxint) := by
  intro f
  induction f with
  | zero => intro st t st' _ _ _ h; simp [assign_canonical_names] at h
  | succ n ih =>
    intro st t st' hts hname hscore h
    cases t with
    | node w name score parent =>
      simp only [assign_canonical_names] at h
      split at h
      · obtain rfl := Option.some.inj h; exact ⟨hname, hscore⟩
      · rename_i hguard
        split at h
        · rename_i nmw heq1 heq2
          split at h
          · exact absurd h (by simp)
          · rename_i st3 heq
            have key := ih _ _ _ (by exact le_refl (0 : Int)) (by exact hname)
              (by
                rw [scoreOf_setScore]
                split
                · exact Or.inr rfl
                · exact hscore) heq
            exact ih _ _ _ (by exact trivial) key.1 key.2 h
        · exact absurd h (by simp)
        · split at h
          · exact absurd h (by simp)
          · rename_i st3 heq
            by_cases hvw : v = w
            · subst hvw
              exfalso
              rcases hscore with hs | hs
              · rename_i hnomatch1 hnomatch2
                exact hnomatch1 nm hs hname
              · apply hguard
                refine ⟨by rw [hs]; rfl, ?_⟩
                rw [hs]
                have h3 : score ≤ 0 := hts
                have hpos : (0 : Int) < pymaxint := by norm_num [pymaxint]
                show score ≤ pymaxint
                omega
            · have key := ih _ _ _ (by exact hts)
                (by
                  split
                  · rw [getVal_setScore, getVal_setVal_ne _ _ hvw]
                    exact hname
                  · exact hname)
                (by
                  split
                  · rw [scoreOf_setScore, if_neg hvw]
                    exact hscore
                  · exact hscore) heq
              exact ih _ _ _ (by exact trivial) key.1 key.2 h
    | varloop w name score bs =>
      cases bs with
      | nil =>
        simp only [assign_canonical_names] at h
        obtain rfl := Option.some.inj h; exact ⟨hname, hscore⟩
      | cons b rest =>
        simp only [assign_canonical_names] at h
        split at h
        · exact ih _ _ _ (by exact hts) hname hscore h
        · exact absurd h (by simp)
        · split at h
          · exact absurd h (by simp)
          · rename_i st2 heq
            have hsc : score - 1 - penalty_imported (getVar st b).is_imported
                - penalty_alias (getVar st b).is_alias ≤ 0 := by
              have h1 := penalty_imported_nonneg (getVar st b).is_imported
              have h2 := penalty_alias_nonneg (getVar st b).is_alias
              have h3 : score ≤ 0 := hts
              omega
            obtain ⟨hn2, hs2⟩ := ih _ _ _ (by exact hsc) hname hscore heq
            exact ih _ _ _ (by exact hts) hn2 hs2 h
    | valloop w cs =>
      cases cs with
      | nil =>
        simp only [assign_canonical_names] at h
        obtain rfl := Option.some.inj h; exact ⟨hname, hscore⟩
      | cons c rest =>
        simp only [assign_canonical_names] at h
        split at h
        · exact absurd h (by simp)
        · rename_i st2 heq
          obtain ⟨hn2, hs2⟩ := ih _ _ _ (by show (-10000 : Int) ≤ 0; norm_num) (by exact hname) (by exact hscore) heq
          exact ih _ _ _ (by exact trivial) hn2 hs2 h

theorem getVal_setVal_name (st : St) (w : Nat) (d : ValueDoc)
    (h : d.canonical_name = (getVal st w).canonical_name) (u : Nat) :
    (getVal (setVal st w d) u).canonical_name = (getVal st u).canonical_name := by
  by_cases huw : u = w
  · subst huw
    by_cases hlt : u < st.vals.length
    · have hd : getVal (setVal st u d) u = d := by
        unfold getVal setVal
        rw [List.getD_eq_getElem?_getD, List.getElem?_set_self hlt]
        rfl
      rw [hd, h]
    · have hset : st.vals.set u d = st.vals := List.set_eq_of_length_le (le_of_not_lt hlt)
      show (getVal { st with vals := st.vals.set u d } u).canonical_name = _
      rw [hset]
  · rw [getVal_setVal_ne _ _ huw]

theorem getVal_mergeOnce_ne (st : St) {w : Nat} (src : Nat) {i : Nat} (h : ¬ i = w) :
    getVal (mergeOnce st w src) i = getVal st i := by
  simp only [mergeOnce]
  split <;> split <;> exact getVal_setVal_ne _ _ h

theorem resolve_val_preserves_other :
    ∀ (f : Nat) (st : St) (w : Nat) (st' : St) (v : Nat),
      ((getVal st v).imported_from = .unknown ∨ (getVal st v).imported_from = .absent) →
      resolve_imports_val f st w = some st' →
      getVal st' v = getVal st v := by
  intro f
  induction f with
  | zero => intro st w st' v _ h; simp [resolve_imports_val] at h
  | succ n ih =>
    intro st w st' v hv h
    simp only [resolve_imports_val] at h
    split at h
    · rename_i p hp
      split at h
      · rename_i src hsrc
        split at h
        · obtain rfl := Option.some.inj h; rfl
        · by_cases hvw : v = w
          · subst hvw
            rcases hv with h1 | h1 <;> rw [hp] at h1 <;> exact Tri.noConfusion h1
          · have hpres : getVal (mergeOnce st w src) v = getVal st v :=
              getVal_mergeOnce_ne st src hvw
            have h2 := ih _ _ _ _ (by rw [hpres]; exact hv) h
            rw [h2, hpres]
      · obtain rfl := Option.some.inj h; rfl
    · obtain rfl := Option.some.inj h; rfl

theorem resolve_fold_preserves :
    ∀ (l : List Nat) (f : Nat) (st : St) (st' : St) (v : Nat),
      ((getVal st v).imported_from = .unknown ∨ (getVal st v).imported_from = .absent) →
      List.foldlM (fun s u => resolve_imports_val f s u) st l = some st' →
      getVal st' v = getVal st v := by
  intro l
  induction l with
  | nil =>
    intro f st st' v _ h
    simp only [List.foldlM_nil] at h
    obtain rfl := Option.some.inj h; rfl
  | cons u us ih =>
    intro f st st' v hv h
    rw [List.foldlM_cons] at h
    cases hx : resolve_imports_val f st u with
    | none => rw [hx] at h; simp at h
    | some s1 =>
      rw [hx] at h
      have h1 := resolve_val_preserves_other f st u s1 v hv hx
      have h2 := ih f s1 st' v (by rw [h1]; exact hv) h
      rw [h2, h1]

theorem backfill_ns_step_name (st : St) (w cd : Nat) (u : Nat) :
    (getVal (backfill_ns_step st w cd) u).canonical_name =
      (getVal st u).canonical_name := by
  unfold backfill_ns_step
  split
  · split
    · exact getVal_setVal_name st w _ (by exact rfl) u
    · rfl
  · rfl

theorem backfill_preserves_name :
    ∀ (st : St) (w : Nat) (st' : St), backfill_container st w = some st' →
      ∀ u, (getVal st' u).canonical_name = (getVal st u).canonical_name := by
  intro st w st' h u
  simp only [backfill_container] at h
  split at h
  · obtain rfl := Option.some.inj h; rfl
  · split at h
    · obtain rfl := Option.some.inj h
      exact getVal_setVal_name st w _ (by exact rfl) u
    · split at h
      · rename_i nm hnm
        split at h
        · obtain rfl := Option.some.inj h
          exact getVal_setVal_name st w _ (by exact rfl) u
        · split at h
          · obtain rfl := Option.some.inj h; rfl
          · rename_i cd hcd
            split at h
            · split at h
              · split at h
                · obtain rfl := Option.some.inj h
                  exact ((getVal_setVal_name _ w _ (by exact rfl) u).trans
                    (backfill_ns_step_name st w cd u))
                · obtain rfl := Option.some.inj h
                  exact backfill_ns_step_name st w cd u
              · exact absurd h (by simp)
            · obtain rfl := Option.some.inj h
              exact backfill_ns_step_name st w cd u
      · exact absurd h (by simp)

theorem backfill_fold_preserves_name :
    ∀ (l : List Nat) (st : St) (st' : St),
      List.foldlM (fun s u => backfill_container s u) st l = some st' →
      ∀ u, (getVal st' u).canonical_name = (getVal st u).canonical_name := by
  intro l
  induction l with
  | nil =>
    intro st st' h u
    simp only [List.foldlM_nil] at h
    obtain rfl := Option.some.inj h; rfl
  | cons w ws ih =>
    intro st st' h u
    rw [List.foldlM_cons] at h
    cases hx : backfill_container st w with
    | none => rw [hx] at h; simp at h
    | some s1 =>
      rw [hx] at h
      exact (ih s1 st' h u).trans (backfill_preserves_name st w s1 hx u)

theorem wstable_vals {st st' : St} (h : wstable st' = wstable st) :
    st'.vals = st.vals := by
  have h2 := congrArg (fun t => t.1) h
  simpa [wstable] using h2

theorem wstable_scores {st st' : St} (h : wstable st' = wstable st) :
    st'.score_dict = st.score_dict := by
  have h2 := congrArg (fun t => t.2.2.2.1) h
  simpa [wstable] using h2

theorem coreFields_getVal_eq {st st' : St} (h : coreSt st' = coreSt st) (v : Nat) :
    coreFields (getVal st' v) = coreFields (getVal st v) := by
  have h3 : st'.vals.map coreFields = st.vals.map coreFields := by
    have h2 := congrArg (fun t => t.2.2) h
    simpa [coreSt] using h2
  have h4 : (st'.vals.map coreFields)[v]? = (st.vals.map coreFields)[v]? := by rw [h3]
  rw [List.getElem?_map, List.getElem?_map] at h4
  unfold getVal
  rw [List.getD_eq_getElem?_getD, List.getD_eq_getElem?_getD]
  cases h1 : st'.vals[v]? with
  | none =>
    cases h2 : st.vals[v]? with
    | none => rfl
    | some d => rw [h1, h2] at h4; simp at h4
  | some d =>
    cases h2 : st.vals[v]? with
    | none => rw [h1, h2] at h4; simp at h4
    | some d2 =>
      rw [h1, h2] at h4
      simp only [Option.map_some'] at h4
      simp only [Option.getD_some]
      exact Option.some.inj h4

theorem imported_from_of_coreSt {st st' : St} (h : coreSt st' = coreSt st) (v : Nat) :
    (getVal st' v).imported_from = (getVal st v).imported_from :=
  congrArg (fun t => t.2.1) (coreFields_getVal_eq h v)

theorem index_fold_preserves (v : Nat) (nm : DottedName) :
    ∀ (l : List Nat) (f : Nat) (st st' : St),
      (getVal st v).canonical_name = .known nm →
      (scoreOf st v = none ∨ scoreOf st v = some pymaxint) →
      List.foldlM (fun s r =>
        match find_contained_valdocs f s (.node (some r)) with
        | none => none
        | some s1 => assign_canonical_names f s1 (.node r (canonOf s1 r) 0 none)) st l
        = some st' →
      (getVal st' v).canonical_name = .known nm ∧
      (scoreOf st' v = none ∨ scoreOf st' v = some pymaxint) ∧
      (getVal st' v).imported_from = (getVal st v).imported_from := by
  intro l
  induction l with
  | nil =>
    intro f st st' hn hs h
    simp only [List.foldlM_nil] at h
    obtain rfl := Option.some.inj h; exact ⟨hn, hs, rfl⟩
  | cons r rs ih =>
    intro f st st' hn hs h
    rw [List.foldlM_cons] at h
    cases hw : find_contained_valdocs f st (.node (some r)) with
    | none => rw [hw] at h; simp at h
    | some s1 =>
      rw [hw] at h
      have h2 : (assign_canonical_names f s1 (.node r (canonOf s1 r) 0 none)).bind
          (fun s2 => List.foldlM (fun s r =>
            match find_contained_valdocs f s (.node (some r)) with
            | none => none
            | some s1 => assign_canonical_names f s1 (.node r (canonOf s1 r) 0 none)) s2 rs)
          = some st' := h
      have hws := find_contained_wstable f st _ s1 hw
      have hv1 : getVal s1 v = getVal st v := by
        unfold getVal; rw [wstable_vals hws]
      have hsc1 : scoreOf s1 v = scoreOf st v := by
        unfold scoreOf; rw [wstable_scores hws]
      cases ha : assign_canonical_names f s1 (.node r (canonOf s1 r) 0 none) with
      | none => rw [ha] at h2; simp at h2
      | some s2 =>
        rw [ha] at h2
        simp only [Option.some_bind] at h2
        obtain ⟨hn2, hs2⟩ := assign_preserves_prenamed v nm f s1 _ s2
          (by exact le_refl (0 : Int)) (by rw [hv1]; exact hn) (by rw [hsc1]; exact hs) ha
        have hcore := assign_core_stable f s1 _ s2 ha
        have hif2 : (getVal s2 v).imported_from = (getVal st v).imported_from := by
          rw [imported_from_of_coreSt hcore v, hv1]
        obtain ⟨hn3, hs3, hif3⟩ := ih f s2 st' hn2 hs2 h2
        exact ⟨hn3, hs3, hif3.trans hif2⟩

/-- C1, amended: a value that carries a known canonical name before indexing
keeps exactly that name through the whole construction, provided the
alias/import merger does not rewrite the entity — here guaranteed by the
entity having no declared `imported_from` origin (`UNKNOWN` or `None`).  The
naming pass freezes pre-existing names with score `sys.maxint`, which no
competing binding path can beat, and the merge and back-fill passes leave
the entity's `canonical_name` untouched. -/
theorem c1_preserved_when_unmerged (f : Nat) (a : Arena) (st : St) (v : Nat)
    (nm : DottedName) :
    buildIndex f a = .done st →
    (a.vals.getD v dfltVal).canonical_name = .known nm →
    ((a.vals.getD v dfltVal).imported_from = .unknown ∨
      (a.vals.getD v dfltVal).imported_from = .absent) →
    (getVal st v).canonical_name = .known nm := by
  intro hb hn hi
  unfold buildIndex at hb
  split at hb
  · cases hir : index_roots f (initSt a) with
    | none => rw [hir] at hb; exact BuildResult.noConfusion hb
    | some st1 =>
      rw [hir] at hb
      unfold index_roots at hir
      obtain ⟨hn1, hs1, hif1⟩ := index_fold_preserves v nm (initSt a).rootList f
        (initSt a) st1 (by exact hn) (by exact Or.inl rfl) hir
      have hb2 : (match resolve_imports f st1 with
        | none => BuildResult.incomplete
        | some st2 =>
          match set_canonical_containers st2 with
          | none => BuildResult.incomplete
          | some st3 => BuildResult.done st3) = BuildResult.done st := hb
      cases hr : resolve_imports f st1 with
      | none => rw [hr] at hb2; exact BuildResult.noConfusion hb2
      | some st2 =>
        rw [hr] at hb2
        unfold resolve_imports at hr
        have hi1 : (getVal st1 v).imported_from = .unknown ∨
            (getVal st1 v).imported_from = .absent := by
          rw [hif1]
          exact hi
        have hv2 : getVal st2 v = getVal st1 v :=
          resolve_fold_preserves st1.reachable_valdocs f st1 st2 v hi1 hr
        have hb3 : (match set_canonical_containers st2 with
          | none => BuildResult.incomplete
          | some st3 => BuildResult.done st3) = BuildResult.done st := hb2
        cases hbf : set_canonical_containers st2 with
        | none => rw [hbf] at hb3; exact BuildResult.noConfusion hb3
        | some st3 =>
          rw [hbf] at hb3
          obtain rfl := BuildResult.done.inj hb3
          unfold set_canonical_containers at hbf
          have hname3 := backfill_fold_preserves_name st2.reachable_valdocs st2 st3 hbf v
          rw [hname3, hv2, hn1]
  · exact BuildResult.noConfusion hb

/-- C1, witness: the amended preservation theorem applied to the concrete
index of `aTiny`, whose root is pre-named `m` and declares no import
origin. -/
theorem c1_preserved_when_unmerged_sat :
    buildIndex 10 aTiny = .done stTiny ∧
    (aTiny.vals.getD 0 dfltVal).canonical_name = .known ["m"] ∧
    (getVal stTiny 0).canonical_name = .known ["m"] :=
  ⟨by decide, by decide,
    c1_preserved_when_unmerged 10 aTiny stTiny 0 ["m"] (by decide) (by decide)
      (Or.inl (by decide))⟩

theorem getVar_update_rvd (st : St) (l : List Nat) (b : Nat) :
    getVar { st with reachable_vardocs := l } b = getVar st b := rfl

/-- C6, amended: the per-binding behavior of the containment walker.  Every
binding is recorded in the reachable-binding set first; a binding whose
target is *unknown* is skipped; a definitely-imported binding is not
recursed into; any other binding is recursed into — including one whose
target is known-absent, in which case the walker recurses on the `None`
marker itself. -/
theorem c6_walker_step_behavior :
    ∀ (f : Nat) (st : St) (b : Nat) (rest : List Nat),
      ((getVar st b).value = .unknown →
        find_contained_valdocs (f+1) st (.varloop (b :: rest)) =
          find_contained_valdocs f
            { st with reachable_vardocs := addUnique st.reachable_vardocs b }
            (.varloop rest)) ∧
      ((getVar st b).is_imported = .known true →
        find_contained_valdocs (f+1) st (.varloop (b :: rest)) =
          find_contained_valdocs f
            { st with reachable_vardocs := addUnique st.reachable_vardocs b }
            (.varloop rest)) ∧
      (∀ u, (getVar st b).value = .known u → ¬ (getVar st b).is_imported = .known true →
        find_contained_valdocs (f+1) st (.varloop (b :: rest)) =
          (find_contained_valdocs f
            { st with reachable_vardocs := addUnique st.reachable_vardocs b }
            (.node (some u))).bind
            (fun st2 => find_contained_valdocs f st2 (.varloop rest))) ∧
      ((getVar st b).value = .absent → ¬ (getVar st b).is_imported = .known true →
        find_contained_valdocs (f+1) st (.varloop (b :: rest)) =
          (find_contained_valdocs f
            { st with reachable_vardocs := addUnique st.reachable_vardocs b }
            (.node none)).bind
            (fun st2 => find_contained_valdocs f st2 (.varloop rest))) := by
  intro f st b rest
  refine ⟨?_, ?_, ?_, ?_⟩
  · intro h
    simp only [find_contained_valdocs, getVar_update_rvd, h]
  · intro h
    cases hv : (getVar st b).value with
    | unknown => simp only [find_contained_valdocs, getVar_update_rvd, hv]
    | known u =>
      simp only [find_contained_valdocs, getVar_update_rvd, hv, h, if_pos]
    | absent =>
      simp only [find_contained_valdocs, getVar_update_rvd, hv, h, if_pos]
  · intro u hv hni
    simp only [find_contained_valdocs, getVar_update_rvd, hv, hni, if_neg, triValOpt]
    cases hrec : find_contained_valdocs f
        { st with reachable_vardocs := addUnique st.reachable_vardocs b }
        (.node (some u)) <;> simp [hrec]
  · intro hv hni
    simp only [find_contained_valdocs, getVar_update_rvd, hv, hni, if_neg, triValOpt]
    cases hrec : find_contained_valdocs f
        { st with reachable_vardocs := addUnique st.reachable_vardocs b }
        (.node none) <;> simp [hrec]

/-- C6, witness: the amended step theorem applied to the binding of `aC6`
(known-absent target, not imported): the walker step recurses on the `None`
marker. -/
theorem c6_walker_step_behavior_sat :
    (getVar (initSt aC6) 0).value = .absent ∧
    find_contained_valdocs 6 (initSt aC6) (.varloop [0]) =
      (find_contained_valdocs 5
        { initSt aC6 with reachable_vardocs := addUnique (initSt aC6).reachable_vardocs 0 }
        (.node none)).bind
        (fun st2 => find_contained_valdocs 5 st2 (.varloop [])) :=
  ⟨by decide,
    (c6_walker_step_behavior 5 (initSt aC6) 0 []).2.2.2 (by decide) (by decide)⟩

/-- C9: `DocIndex.__init__` raises its `ValueError` exactly when some root
value lacks a known canonical name, and it does so before any indexing work
(the result is `precondError` regardless of the fuel available to the
indexing passes); when every root carries a known canonical name this error
is never raised. -/
theorem c9_precondition_check :
    ∀ (f : Nat) (a : Arena),
      buildIndex f a = .precondError ↔
        ∃ r ∈ a.roots, (a.vals.getD r dfltVal).canonical_name.isKnown = false := by
  intro f a
  by_cases h : a.roots.all (fun r => (a.vals.getD r dfltVal).canonical_name.isKnown)
  · have hne : buildIndex f a ≠ .precondError := by
      unfold buildIndex
      rw [if_pos h]
      split
      · simp
      · split
        · simp
        · split <;> simp
    rw [List.all_eq_true] at h
    constructor
    · intro hc; exact absurd hc hne
    · rintro ⟨r, hr, hfalse⟩
      rw [h r hr] at hfalse
      exact Bool.noConfusion hfalse
  · have he : buildIndex f a = .precondError := by
      unfold buildIndex
      rw [if_neg h]
    constructor
    · intro _
      rw [List.all_eq_true] at h
      push_neg at h
      obtain ⟨r, hr, hfalse⟩ := h
      exact ⟨r, hr, by simpa using hfalse⟩
    · intro _; exact he

theorem mergeOnce_rootList (st : St) (v src : Nat) :
    (mergeOnce st v src).rootList = st.rootList := by
  simp only [mergeOnce]
  split <;> split <;> rfl

theorem resolve_val_rootList :
    ∀ (f : Nat) (st : St) (w : Nat) (st' : St),
      resolve_imports_val f st w = some st' → st'.rootList = st.rootList := by
  intro f
  induction f with
  | zero => intro st w st' h; simp [resolve_imports_val] at h
  | succ n ih =>
    intro st w st' h
    simp only [resolve_imports_val] at h
    split at h
    · split at h
      · split at h
        · obtain rfl := Option.some.inj h; rfl
        · exact (ih _ _ _ h).trans (mergeOnce_rootList st w _)
      · obtain rfl := Option.some.inj h; rfl
    · obtain rfl := Option.some.inj h; rfl

theorem resolve_fold_rootList :
    ∀ (l : List Nat) (f : Nat) (st : St) (st' : St),
      List.foldlM (fun s u => resolve_imports_val f s u) st l = some st' →
      st'.rootList = st.rootList := by
  intro l
  induction l with
  | nil =>
    intro f st st' h
    simp only [List.foldlM_nil] at h
    obtain rfl := Option.some.inj h; rfl
  | cons u us ih =>
    intro f st st' h
    rw [List.foldlM_cons] at h
    cases hx : resolve_imports_val f st u with
    | none => rw [hx] at h; simp at h
    | some s1 =>
      rw [hx] at h
      exact (ih f s1 st' h).trans (resolve_val_rootList f st u s1 hx)

theorem setVal_rootList (st : St) (v : Nat) (d : ValueDoc) :
    (setVal st v d).rootList = st.rootList := rfl

theorem backfill_ns_step_rootList (st : St) (w cd : Nat) :
    (backfill_ns_step st w cd).rootList = st.rootList := by
  unfold backfill_ns_step
  split
  · split <;> rfl
  · rfl

theorem backfill_rootList :
    ∀ (st : St) (w : Nat) (st' : St), backfill_container st w = some st' →
      st'.rootList = st.rootList := by
  intro st w st' h
  simp only [backfill_container] at h
  split at h
  · obtain rfl := Option.some.inj h; rfl
  · split at h
    · obtain rfl := Option.some.inj h; rfl
    · split at h
      · split at h
        · obtain rfl := Option.some.inj h; rfl
        · split at h
          · obtain rfl := Option.some.inj h; rfl
          · rename_i cd hcd
            split at h
            · split at h
              · split at h
                · obtain rfl := Option.some.inj h
                  exact (setVal_rootList _ _ _).trans (backfill_ns_step_rootList st w cd)
                · obtain rfl := Option.some.inj h
                  exact backfill_ns_step_rootList st w cd
              · exact absurd h (by simp)
            · obtain rfl := Option.some.inj h
              exact backfill_ns_step_rootList st w cd
      · exact absurd h (by simp)

theorem backfill_fold_rootList :
    ∀ (l : List Nat) (st : St) (st' : St),
      List.foldlM (fun s u => backfill_container s u) st l = some st' →
      st'.rootList = st.rootList := by
  intro l
  induction l with
  | nil =>
    intro st st' h
    simp only [List.foldlM_nil] at h
    obtain rfl := Option.some.inj h; rfl
  | cons w ws ih =>
    intro st st' h
    rw [List.foldlM_cons] at h
    cases hx : backfill_container st w with
    | none => rw [hx] at h; simp at h
    | some s1 =>
      rw [hx] at h
      exact (ih s1 st' h).trans (backfill_rootList st w s1 hx)

theorem index_fold_rootList :
    ∀ (l : List Nat) (f : Nat) (st st' : St),
      List.foldlM (fun s r =>
        match find_contained_valdocs f s (.node (some r)) with
        | none => none
        | some s1 => assign_canonical_names f s1 (.node r (canonOf s1 r) 0 none)) st l
        = some st' →
      st'.rootList = st.rootList := by
  intro l
  induction l with
  | nil =>
    intro f st st' h
    simp only [List.foldlM_nil] at h
    obtain rfl := Option.some.inj h; rfl
  | cons r rs ih =>
    intro f st st' h
    rw [List.foldlM_cons] at h
    cases hw : find_contained_valdocs f st (.node (some r)) with
    | none => rw [hw] at h; simp at h
    | some s1 =>
      rw [hw] at h
      have h2 : (assign_canonical_names f s1 (.node r (canonOf s1 r) 0 none)).bind
          (fun s2 => List.foldlM (fun s r =>
            match find_contained_valdocs f s (.node (some r)) with
            | none => none
            | some s1 => assign_canonical_names f s1 (.node r (canonOf s1 r) 0 none)) s2 rs)
          = some st' := h
      cases ha : assign_canonical_names f s1 (.node r (canonOf s1 r) 0 none) with
      | none => rw [ha] at h2; simp at h2
      | some s2 =>
        rw [ha] at h2
        simp only [Option.some_bind] at h2
        have e1 : s1.rootList = st.rootList := by
          have h3 := congrArg (fun t => t.2.2.1) (find_contained_wstable f st _ s1 hw)
          simpa [wstable] using h3
        have e2 : s2.rootList = s1.rootList := by
          have h3 := congrArg (fun t => t.2.1) (assign_core_stable f s1 _ s2 ha)
          simpa [coreSt] using h3
        exact (ih f s2 st' h2).trans (e2.trans e1)

theorem buildIndex_rootList (f : Nat) (a : Arena) (st : St) :
    buildIndex f a = .done st → st.rootList = (initSt a).rootList := by
  intro hb
  unfold buildIndex at hb
  split at hb
  · cases hir : index_roots f (initSt a) with
    | none => rw [hir] at hb; exact BuildResult.noConfusion hb
    | some st1 =>
      rw [hir] at hb
      unfold index_roots at hir
      have e1 := index_fold_rootList (initSt a).rootList f (initSt a) st1 hir
      have hb2 : (match resolve_imports f st1 with
        | none => BuildResult.incomplete
        | some st2 =>
          match set_canonical_containers st2 with
          | none => BuildResult.incomplete
          | some st3 => BuildResult.done st3) = BuildResult.done st := hb
      cases hr : resolve_imports f st1 with
      | none => rw [hr] at hb2; exact BuildResult.noConfusion hb2
      | some st2 =>
        rw [hr] at hb2
        unfold resolve_imports at hr
        have e2 := resolve_fold_rootList st1.reachable_valdocs f st1 st2 hr
        have hb3 : (match set_canonical_containers st2 with
          | none => BuildResult.incomplete
          | some st3 => BuildResult.done st3) = BuildResult.done st := hb2
        cases hbf : set_canonical_containers st2 with
        | none => rw [hbf] at hb3; exact BuildResult.noConfusion hb3
        | some st3 =>
          rw [hbf] at hb3
          obtain rfl := BuildResult.done.inj hb3
          unfold set_canonical_containers at hbf
          have e3 := backfill_fold_rootList st2.reachable_valdocs st2 _ hbf
          exact e3.trans (e2.trans e1)
  · exact BuildResult.noConfusion hb

theorem initSt_rootList_sorted (a : Arena) :
    List.Sorted (fun r s => rootKeyLen a r ≤ rootKeyLen a s) (initSt a).rootList :=
  List.sorted_insertionSort _ a.roots

theorem try_roots_none_iff (st : St) (name : DottedName) :
    ∀ l : List Nat,
      (try_roots st name l = (none, none) ↔
        ∀ r ∈ l, root_dominates st r name = true →
          get_from_loop st none (some r) (name.drop (canonOf st r).length) = (none, none)) := by
  intro l
  induction l with
  | nil => simp [try_roots]
  | cons r rest ih =>
    simp only [try_roots]
    split
    · rename_i hdom
      split
      · rename_i hne
        constructor
        · intro h
          exfalso
          rcases hne with hv | hv <;> [exact hv (congrArg Prod.fst h);
            exact hv (congrArg Prod.snd h)]
        · intro hall
          exfalso
          have hz := hall r (by simp) hdom
          rcases hne with hv | hv <;> [exact hv (congrArg Prod.fst hz);
            exact hv (congrArg Prod.snd hz)]
      · rename_i hne
        push_neg at hne
        have hz : get_from_loop st none (some r) (name.drop (canonOf st r).length)
            = (none, none) := by
          obtain ⟨h1, h2⟩ := hne
          exact Prod.ext h1 h2
        rw [ih]
        constructor
        · intro hall r' hr' hd'
          rcases List.mem_cons.mp hr' with rfl | hr'
          · exact hz
          · exact hall r' hr' hd'
        · intro hall r' hr' hd'
          exact hall r' (List.mem_cons_of_mem _ hr') hd'
    · rename_i hdom
      rw [ih]
      constructor
      · intro hall r' hr' hd'
        rcases List.mem_cons.mp hr' with rfl | hr'
        · exact absurd hd' hdom
        · exact hall r' hr' hd'
      · intro hall r' hr' hd'
        exact hall r' (List.mem_cons_of_mem _ hr') hd'

theorem try_roots_first_hit (st : St) (name : DottedName) :
    ∀ (l1 : List Nat) (r : Nat) (l2 : List Nat),
      (∀ r' ∈ l1, root_dominates st r' name = true →
        get_from_loop st none (some r') (name.drop (canonOf st r').length) = (none, none)) →
      root_dominates st r name = true →
      get_from_loop st none (some r) (name.drop (canonOf st r).length) ≠ (none, none) →
      try_roots st name (l1 ++ r :: l2) =
        get_from_loop st none (some r) (name.drop (canonOf st r).length) := by
  intro l1
  induction l1 with
  | nil =>
    intro r l2 _ hdom hne
    rw [List.nil_append]
    simp only [try_roots, hdom, if_pos]
    split
    · rfl
    · rename_i hcon
      push_neg at hcon
      exact absurd (Prod.ext hcon.1 hcon.2) hne
  | cons x xs ih =>
    intro r l2 hall hdom hne
    rw [List.cons_append]
    simp only [try_roots]
    split
    · rename_i hdx
      have hx := hall x (by simp) hdx
      rw [hx]
      simp only [ne_eq, not_true_eq_false, or_self, if_false]
      exact ih r l2 (fun r' h' hd' => hall r' (List.mem_cons_of_mem _ h') hd') hdom hne
    · exact ih r l2 (fun r' h' hd' => hall r' (List.mem_cons_of_mem _ h') hd') hdom hne

/-- C10: the dotted-name lookup tries each root whose canonical name
dominates the requested path, in root-list order, taking the first whose
segment walk returns something: `(none, none)` is returned exactly when the
walk fails under every dominating root; when the walk fails under every
dominating root before `r` and succeeds under dominating `r`, the lookup
returns `r`'s walk result.  For every completed construction, the lookup
consults exactly the stored root list, which is sorted by ascending
canonical-name length. -/
theorem c10_lookup_falls_through :
    (∀ (st : St) (name : DottedName) (l : List Nat),
      try_roots st name l = (none, none) ↔
        ∀ r ∈ l, root_dominates st r name = true →
          get_from_loop st none (some r) (name.drop (canonOf st r).length) = (none, none)) ∧
    (∀ (st : St) (name : DottedName) (l1 : List Nat) (r : Nat) (l2 : List Nat),
      (∀ r' ∈ l1, root_dominates st r' name = true →
        get_from_loop st none (some r') (name.drop (canonOf st r').length) = (none, none)) →
      root_dominates st r name = true →
      get_from_loop st none (some r) (name.drop (canonOf st r).length) ≠ (none, none) →
      try_roots st name (l1 ++ r :: l2) =
        get_from_loop st none (some r) (name.drop (canonOf st r).length)) ∧
    (∀ (f : Nat) (a : Arena) (st : St), buildIndex f a = .done st →
      (∀ name, lookup_pair st name = try_roots st name st.rootList) ∧
      List.Sorted (fun r s => rootKeyLen a r ≤ rootKeyLen a s) st.rootList) :=
  ⟨fun st name l => try_roots_none_iff st name l,
   fun st name l1 r l2 => try_roots_first_hit st name l1 r l2,
   fun f a st hb =>
     ⟨fun _ => rfl, by rw [buildIndex_rootList f a st hb]; exact initSt_rootList_sorted a⟩⟩

/-- C10, witness: the fall-through component applied to the one-root index
state of `aTiny`: the dominating root `m` is hit first and its walk result is
returned. -/
theorem c10_lookup_falls_through_sat :
    root_dominates (initSt aTiny) 0 ["m"] = true ∧
    try_roots (initSt aTiny) ["m"] [0] =
      get_from_loop (initSt aTiny) none (some 0)
        ((["m"] : DottedName).drop (canonOf (initSt aTiny) 0).length) :=
  ⟨by decide,
    c10_lookup_falls_through.2.1 (initSt aTiny) ["m"] [] 0 []
      (fun r' h' => absurd h' (by simp)) (by decide) (by decide)⟩
/-- C9, witness: the precondition theorem applied to `aNoName`, whose root
has no canonical name: construction reports the precondition error. -/
theorem c9_precondition_check_sat : buildIndex 5 aNoName = .precondError :=
  (c9_precondition_check 5 aNoName).mpr ⟨0, by decide, by decide⟩
